import Mathlib

/-!
# Verification of the `tracing-span-tree` core (`src/lib.rs`)

A shallow embedding of the span-tree profiler: the `Node` tree data
structure, the sibling-merging `aggregate` pass, the indented renderer
`go`, the `Layer` callbacks (`on_new_span` / `on_close`) that build the
tree from scope enter/exit events, and the `enable` registration helper.

Durations and timestamps are modelled as natural numbers of time units;
the textual formatting of a `Duration` (a `std` concern, external to the
crate) is kept as a parameter `fmtDuration : Nat → String` of the
renderer.
-/

/-- Embedding of `struct Node` from `src/lib.rs`: a finished span with its display
name, the number of merged instances, the cumulative duration and the
ordered list of child nodes. -/
inductive Node where
  | mk (name : String) (count : Nat) (duration : Nat) (children : List Node)

def Node.name : Node → String
  | .mk n _ _ _ => n

def Node.count : Node → Nat
  | .mk _ c _ _ => c

def Node.duration : Node → Nat
  | .mk _ _ d _ => d

def Node.children : Node → List Node
  | .mk _ _ _ cs => cs

theorem Node.eta (n : Node) : Node.mk n.name n.count n.duration n.children = n := by
  cases n
  rfl

/-- Number of nodes in a tree (for well-founded recursion). -/
def Node.size : Node → Nat
  | .mk _ _ _ cs => 1 + (cs.attach.map (fun c => Node.size c.1)).sum
decreasing_by
  have := List.sizeOf_lt_of_mem c.2
  simp only [Node.mk.sizeOf_spec]
  omega

/-- Total number of nodes in a forest. -/
def sizeList (l : List Node) : Nat :=
  (l.map Node.size).sum

theorem Node.size_mk (nm : String) (c d : Nat) (cs : List Node) :
    Node.size (.mk nm c d cs) = 1 + sizeList cs := by
  rw [Node.size]
  rw [List.attach_map_coe]
  rfl

theorem Node.size_eq (n : Node) : n.size = 1 + sizeList n.children := by
  cases n
  rw [Node.size_mk]
  rfl

theorem Node.size_pos (n : Node) : 1 ≤ n.size := by
  rw [Node.size_eq]
  exact Nat.le_add_right 1 _

theorem sizeList_cons (c : Node) (cs : List Node) :
    sizeList (c :: cs) = c.size + sizeList cs := by
  simp [sizeList]

theorem sizeList_append (l₁ l₂ : List Node) :
    sizeList (l₁ ++ l₂) = sizeList l₁ + sizeList l₂ := by
  simp [sizeList]

theorem size_le_sizeList {c : Node} {l : List Node} (h : c ∈ l) :
    c.size ≤ sizeList l := by
  induction h with
  | head _ =>
    rw [sizeList_cons]
    exact Nat.le_add_right _ _
  | tail b _ ih =>
    rw [sizeList_cons]
    exact le_trans ih (Nat.le_add_left _ _)

/-- The body of the merge in `Node::aggregate`
(`self.children[idx].duration += child.duration;
self.children[idx].count += child.count;
self.children[idx].children.extend(child.children);`):
fold `child` into the run representative `acc`. -/
def merge_into (child acc : Node) : Node :=
  .mk acc.name (acc.count + child.count) (acc.duration + child.duration)
    (acc.children ++ child.children)

/-- The inner loop of `Node::aggregate` on one run of equal names:
starting from the representative `acc`, absorb the leading elements of
the (sorted) list whose name equals `acc.name`; return the merged
representative and the remaining suffix. -/
def mergeRun (acc : Node) : List Node → Node × List Node
  | [] => (acc, [])
  | c :: cs =>
    if c.name = acc.name then mergeRun (merge_into c acc) cs
    else (acc, c :: cs)

theorem mergeRun_suffix (acc : Node) (l : List Node) :
    (mergeRun acc l).2 <:+ l := by
  induction l generalizing acc with
  | nil => simp [mergeRun]
  | cons c cs ih =>
    rw [mergeRun]
    by_cases h : c.name = acc.name
    · simp only [h, if_true]
      exact (ih (merge_into c acc)).trans (List.suffix_cons c cs)
    · simp only [h, if_false]
      exact List.suffix_rfl

theorem mergeRun_length (acc : Node) (l : List Node) :
    (mergeRun acc l).2.length ≤ l.length := by
  exact (mergeRun_suffix acc l).sublist.length_le

/-- The sibling-merge scan of `Node::aggregate` over the (sorted)
children list: merge every run of adjacent equal-named nodes into the
first member of the run, keeping the representatives in order.  This is
the functional reading of the `idx`/`swap`/`truncate` in-place loop. -/
def dedup : List Node → List Node
  | [] => []
  | c :: cs =>
    (mergeRun c cs).1 :: dedup (mergeRun c cs).2
termination_by l => l.length
decreasing_by
  simp only [List.length_cons]
  exact Nat.lt_succ_of_le (mergeRun_length c cs)

/-- Embedding of `self.children.sort_by_key(|it| it.name)`: a stable sort of the
children by display name. -/
def sortByName (l : List Node) : List Node :=
  l.mergeSort (fun a b => a.name ≤ b.name)

theorem sizeList_mergeRun (acc : Node) (l : List Node) :
    (mergeRun acc l).1.size + sizeList (mergeRun acc l).2 ≤ acc.size + sizeList l := by
  induction l generalizing acc with
  | nil => simp [mergeRun]
  | cons c cs ih =>
    rw [mergeRun]
    by_cases h : c.name = acc.name
    · simp only [h, if_true]
      refine (ih (merge_into c acc)).trans ?_
      rw [sizeList_cons]
      have hm : (merge_into c acc).size ≤ acc.size + c.size := by
        rw [merge_into, Node.size_mk, sizeList_append, Node.size_eq acc, Node.size_eq c]
        omega
      omega
    · simp only [h, if_false]
      exact Nat.le_refl _

theorem sizeList_dedup (l : List Node) : sizeList (dedup l) ≤ sizeList l := by
  cases l with
  | nil => simp [dedup]
  | cons c cs =>
    rw [dedup, sizeList_cons, sizeList_cons]
    have hrec := sizeList_dedup (mergeRun c cs).2
    have := sizeList_mergeRun c cs
    omega
termination_by l.length
decreasing_by
  simp only [List.length_cons]
  exact Nat.lt_succ_of_le (mergeRun_length _ _)

theorem sizeList_sortByName (l : List Node) : sizeList (sortByName l) = sizeList l := by
  have hperm : (sortByName l).Perm l := List.mergeSort_perm l _
  simp only [sizeList]
  exact (hperm.map Node.size).sum_eq

/-- Embedding of `Node::aggregate` from `src/lib.rs`: if the node has children, sort
them by name, merge adjacent equal-named siblings, then recurse into
each surviving child. -/
def Node.aggregate (n : Node) : Node :=
  if n.children.isEmpty then n
  else
    .mk n.name n.count n.duration
      ((dedup (sortByName n.children)).attach.map (fun c => Node.aggregate c.1))
termination_by n.size
decreasing_by
  have h1 : c.1.size ≤ sizeList (dedup (sortByName n.children)) := size_le_sizeList c.2
  have h2 := sizeList_dedup (sortByName n.children)
  have h3 := sizeList_sortByName n.children
  have h4 := Node.size_eq n
  omega

theorem Node.aggregate_def (n : Node) :
    n.aggregate =
      if n.children.isEmpty then n
      else .mk n.name n.count n.duration ((dedup (sortByName n.children)).map Node.aggregate) := by
  rw [Node.aggregate, List.attach_map_coe]

theorem Node.aggregate_name (n : Node) : n.aggregate.name = n.name := by
  rw [Node.aggregate_def]
  by_cases h : n.children.isEmpty
  · simp [h]
  · simp [h, Node.name]

theorem Node.aggregate_count (n : Node) : n.aggregate.count = n.count := by
  rw [Node.aggregate_def]
  by_cases h : n.children.isEmpty
  · simp [h]
  · simp [h, Node.count]

theorem Node.aggregate_duration (n : Node) : n.aggregate.duration = n.duration := by
  rw [Node.aggregate_def]
  by_cases h : n.children.isEmpty
  · simp [h]
  · simp [h, Node.duration]

theorem Node.aggregate_children (n : Node) :
    n.aggregate.children =
      if n.children.isEmpty then n.children
      else (dedup (sortByName n.children)).map Node.aggregate := by
  rw [Node.aggregate_def]
  by_cases h : n.children.isEmpty
  · rw [if_pos h, if_pos h]
  · rw [if_neg h, if_neg h]
    rfl

/-- Sum of the `count` fields of a forest. -/
def countSum (l : List Node) : Nat :=
  (l.map Node.count).sum

/-- Sum of the `duration` fields of a forest. -/
def durationSum (l : List Node) : Nat :=
  (l.map Node.duration).sum

theorem countSum_cons (c : Node) (cs : List Node) :
    countSum (c :: cs) = c.count + countSum cs := by
  simp [countSum]

theorem durationSum_cons (c : Node) (cs : List Node) :
    durationSum (c :: cs) = c.duration + durationSum cs := by
  simp [durationSum]

theorem merge_into_count (c acc : Node) :
    (merge_into c acc).count = acc.count + c.count := by
  rfl

theorem merge_into_duration (c acc : Node) :
    (merge_into c acc).duration = acc.duration + c.duration := by
  rfl

theorem merge_into_name (c acc : Node) :
    (merge_into c acc).name = acc.name := by
  rfl

theorem mergeRun_count (acc : Node) (l : List Node) :
    (mergeRun acc l).1.count + countSum (mergeRun acc l).2 = acc.count + countSum l := by
  induction l generalizing acc with
  | nil => simp [mergeRun]
  | cons c cs ih =>
    rw [mergeRun]
    by_cases h : c.name = acc.name
    · simp only [h, if_true]
      rw [ih (merge_into c acc), merge_into_count, countSum_cons]
      omega
    · simp only [h, if_false]

theorem mergeRun_duration (acc : Node) (l : List Node) :
    (mergeRun acc l).1.duration + durationSum (mergeRun acc l).2 = acc.duration + durationSum l := by
  induction l generalizing acc with
  | nil => simp [mergeRun]
  | cons c cs ih =>
    rw [mergeRun]
    by_cases h : c.name = acc.name
    · simp only [h, if_true]
      rw [ih (merge_into c acc), merge_into_duration, durationSum_cons]
      omega
    · simp only [h, if_false]

theorem countSum_dedup (l : List Node) : countSum (dedup l) = countSum l := by
  cases l with
  | nil => simp [dedup]
  | cons c cs =>
    rw [dedup, countSum_cons, countSum_dedup (mergeRun c cs).2, mergeRun_count, countSum_cons]
termination_by l.length
decreasing_by
  simp only [List.length_cons]
  exact Nat.lt_succ_of_le (mergeRun_length _ _)

theorem durationSum_dedup (l : List Node) : durationSum (dedup l) = durationSum l := by
  cases l with
  | nil => simp [dedup]
  | cons c cs =>
    rw [dedup, durationSum_cons, durationSum_dedup (mergeRun c cs).2, mergeRun_duration,
      durationSum_cons]
termination_by l.length
decreasing_by
  simp only [List.length_cons]
  exact Nat.lt_succ_of_le (mergeRun_length _ _)

theorem countSum_sortByName (l : List Node) : countSum (sortByName l) = countSum l := by
  exact ((List.mergeSort_perm l _).map Node.count).sum_eq

theorem durationSum_sortByName (l : List Node) : durationSum (sortByName l) = durationSum l := by
  exact ((List.mergeSort_perm l _).map Node.duration).sum_eq

theorem countSum_map_aggregate (l : List Node) :
    countSum (l.map Node.aggregate) = countSum l := by
  induction l with
  | nil => rfl
  | cons c cs ih =>
    rw [List.map_cons, countSum_cons, countSum_cons, ih, Node.aggregate_count]

theorem durationSum_map_aggregate (l : List Node) :
    durationSum (l.map Node.aggregate) = durationSum l := by
  induction l with
  | nil => rfl
  | cons c cs ih =>
    rw [List.map_cons, durationSum_cons, durationSum_cons, ih, Node.aggregate_duration]

theorem sorted_sortByName (l : List Node) :
    (sortByName l).Pairwise (fun a b => a.name ≤ b.name) := by
  have htrans : ∀ a b c : Node, (decide (a.name ≤ b.name)) = true →
      (decide (b.name ≤ c.name)) = true → (decide (a.name ≤ c.name)) = true := by
    intro a b c hab hbc
    simp only [decide_eq_true_eq] at *
    exact le_trans hab hbc
  have htotal : ∀ a b : Node,
      ((decide (a.name ≤ b.name)) || (decide (b.name ≤ a.name))) = true := by
    intro a b
    simp only [Bool.or_eq_true, decide_eq_true_eq]
    exact le_total a.name b.name
  have h := @List.sorted_mergeSort Node (fun a b => decide (a.name ≤ b.name)) htrans htotal l
  exact h.imp (fun hab => of_decide_eq_true hab)

theorem mergeRun_fst_name (acc : Node) (l : List Node) :
    (mergeRun acc l).1.name = acc.name := by
  induction l generalizing acc with
  | nil => simp [mergeRun]
  | cons c cs ih =>
    rw [mergeRun]
    by_cases h : c.name = acc.name
    · simp only [h, if_true]
      rw [ih (merge_into c acc), merge_into_name]
    · simp only [h, if_false]

theorem mergeRun_rest_ne (acc : Node) (l : List Node) {h : Node} {t : List Node}
    (he : (mergeRun acc l).2 = h :: t) : h.name ≠ acc.name := by
  induction l generalizing acc with
  | nil => simp [mergeRun] at he
  | cons c cs ih =>
    rw [mergeRun] at he
    by_cases hc : c.name = acc.name
    · simp only [hc, if_true] at he
      have := ih (merge_into c acc) he
      rwa [merge_into_name] at this
    · simp only [hc, if_false] at he
      cases he
      exact hc

theorem dedup_name_mem {x : Node} {l : List Node} (hx : x ∈ dedup l) :
    ∃ y ∈ l, x.name = y.name := by
  induction l using dedup.induct with
  | case1 => simp [dedup] at hx
  | case2 c cs ih =>
    rw [dedup, List.mem_cons] at hx
    rcases hx with hx | hx
    · exact ⟨c, List.mem_cons_self c cs, by rw [hx]; exact mergeRun_fst_name c cs⟩
    · obtain ⟨y, hy, hxy⟩ := ih hx
      have hsub := (mergeRun_suffix c cs).subset
      exact ⟨y, List.mem_cons_of_mem c (hsub hy), hxy⟩

theorem dedup_names_lt (l : List Node)
    (hs : l.Pairwise (fun a b => a.name ≤ b.name)) :
    (dedup l).Pairwise (fun a b => a.name < b.name) := by
  induction l using dedup.induct with
  | case1 => simp [dedup]
  | case2 c cs ih =>
    rw [dedup]
    rw [List.pairwise_cons] at hs
    obtain ⟨hc, hcs⟩ := hs
    have hrest_sorted : (mergeRun c cs).2.Pairwise (fun a b => a.name ≤ b.name) :=
      hcs.sublist (mergeRun_suffix c cs).sublist
    have hrest_gt : ∀ y ∈ (mergeRun c cs).2, c.name < y.name := by
      intro y hy
      rcases hrest : (mergeRun c cs).2 with _ | ⟨hd, tl⟩
      · rw [hrest] at hy
        cases hy
      · rw [hrest] at hy
        have hhd_ne : hd.name ≠ c.name := mergeRun_rest_ne c cs hrest
        have hhd_mem : hd ∈ cs := (mergeRun_suffix c cs).subset (by rw [hrest]; exact List.mem_cons_self _ _)
        have hhd_ge : c.name ≤ hd.name := hc hd hhd_mem
        have hhd_gt : c.name < hd.name := lt_of_le_of_ne hhd_ge (fun h => hhd_ne h.symm)
        rw [List.mem_cons] at hy
        rcases hy with rfl | hy
        · exact hhd_gt
        · have : hd.name ≤ y.name := by
            rw [hrest] at hrest_sorted
            rw [List.pairwise_cons] at hrest_sorted
            exact hrest_sorted.1 y hy
          exact lt_of_lt_of_le hhd_gt this
    rw [List.pairwise_cons]
    constructor
    · intro x hx
      obtain ⟨y, hy, hxy⟩ := dedup_name_mem hx
      rw [mergeRun_fst_name, hxy]
      exact hrest_gt y hy
    · exact ih hrest_sorted

/-- The post-aggregation invariant of the spec: at every node of the
tree, no two direct children carry the same display name. -/
inductive NoDupNames : Node → Prop where
  | intro (n : Node) (hnames : (n.children.map Node.name).Nodup)
      (hrec : ∀ c ∈ n.children, NoDupNames c) : NoDupNames n

theorem names_map_aggregate (l : List Node) :
    (l.map Node.aggregate).map Node.name = l.map Node.name := by
  rw [List.map_map]
  exact List.map_congr_left (fun c _ => Node.aggregate_name c)

theorem noDupNames_aggregate_aux (n : Node) : NoDupNames n.aggregate := by
  by_cases h : n.children.isEmpty
  · rw [Node.aggregate_def, if_pos h]
    have hnil : n.children = [] := List.isEmpty_iff.mp h
    exact NoDupNames.intro n (by rw [hnil]; simp) (by rw [hnil]; simp)
  · rw [Node.aggregate_def, if_neg h]
    refine NoDupNames.intro _ ?_ ?_
    · show ((dedup (sortByName n.children)).map Node.aggregate).map Node.name |>.Nodup
      rw [names_map_aggregate]
      have hlt := dedup_names_lt (sortByName n.children) (sorted_sortByName n.children)
      have hne : (dedup (sortByName n.children)).Pairwise (fun a b => a.name ≠ b.name) :=
        hlt.imp (fun hab => ne_of_lt hab)
      rw [List.Nodup, List.pairwise_map]
      exact hne
    · show ∀ c ∈ (dedup (sortByName n.children)).map Node.aggregate, NoDupNames c
      intro c hc
      obtain ⟨c₀, hc₀, rfl⟩ := List.mem_map.mp hc
      exact noDupNames_aggregate_aux c₀
termination_by n.size
decreasing_by
  have h1 : c₀.size ≤ sizeList (dedup (sortByName n.children)) := size_le_sizeList hc₀
  have h2 := sizeList_dedup (sortByName n.children)
  have h3 := sizeList_sortByName n.children
  have h4 := Node.size_eq n
  omega

theorem sortByName_of_sorted {l : List Node}
    (h : l.Pairwise (fun a b => a.name ≤ b.name)) : sortByName l = l := by
  exact List.mergeSort_of_sorted (h.imp (fun hab => decide_eq_true hab))

theorem dedup_of_chain_ne {l : List Node}
    (h : l.Chain' (fun a b => a.name ≠ b.name)) : dedup l = l := by
  induction l with
  | nil => simp [dedup]
  | cons c cs ih =>
    cases cs with
    | nil => simp [dedup, mergeRun]
    | cons d ds =>
      have hcd : c.name ≠ d.name := (List.chain'_cons.mp h).1
      have hmr : mergeRun c (d :: ds) = (c, d :: ds) := by
        rw [mergeRun, if_neg (fun hdc => hcd hdc.symm)]
      rw [dedup, hmr]
      exact congrArg (c :: ·) (ih (List.chain'_cons.mp h).2)

theorem dedup_ne_nil {l : List Node} (h : l ≠ []) : dedup l ≠ [] := by
  cases l with
  | nil => exact absurd rfl h
  | cons c cs =>
    rw [dedup]
    exact List.cons_ne_nil _ _

theorem sortByName_ne_nil {l : List Node} (h : l ≠ []) : sortByName l ≠ [] := by
  intro hs
  apply h
  have hlen := (List.mergeSort_perm l (fun a b => a.name ≤ b.name)).length_eq
  rw [sortByName] at hs
  rw [hs] at hlen
  exact List.length_eq_zero.mp hlen.symm

theorem Node.name_mk (nm : String) (c d : Nat) (cs : List Node) :
    (Node.mk nm c d cs).name = nm := rfl

theorem Node.count_mk (nm : String) (c d : Nat) (cs : List Node) :
    (Node.mk nm c d cs).count = c := rfl

theorem Node.duration_mk (nm : String) (c d : Nat) (cs : List Node) :
    (Node.mk nm c d cs).duration = d := rfl

theorem Node.children_mk (nm : String) (c d : Nat) (cs : List Node) :
    (Node.mk nm c d cs).children = cs := rfl

theorem Node.aggregate_mk (nm : String) (c d : Nat) (cs : List Node) :
    (Node.mk nm c d cs).aggregate =
      if cs.isEmpty then Node.mk nm c d cs
      else Node.mk nm c d ((dedup (sortByName cs)).map Node.aggregate) := by
  rw [Node.aggregate_def]
  rfl

theorem aggregate_idem_aux (n : Node) : n.aggregate.aggregate = n.aggregate := by
  by_cases h : n.children.isEmpty
  · have hn : n.aggregate = n := by rw [Node.aggregate_def, if_pos h]
    rw [hn, Node.aggregate_def, if_pos h]
  · have hm : n.aggregate =
        .mk n.name n.count n.duration ((dedup (sortByName n.children)).map Node.aggregate) := by
      rw [Node.aggregate_def, if_neg h]
    have hlt := dedup_names_lt (sortByName n.children) (sorted_sortByName n.children)
    have hsorted' : ((dedup (sortByName n.children)).map Node.aggregate).Pairwise
        (fun a b => a.name ≤ b.name) := by
      rw [List.pairwise_map]
      exact hlt.imp (fun hab => by
        rw [Node.aggregate_name, Node.aggregate_name]
        exact le_of_lt hab)
    have hchain : ((dedup (sortByName n.children)).map Node.aggregate).Chain'
        (fun a b => a.name ≠ b.name) := by
      refine List.Pairwise.chain' ?_
      rw [List.pairwise_map]
      exact hlt.imp (fun hab => by
        rw [Node.aggregate_name, Node.aggregate_name]
        exact ne_of_lt hab)
    have hmap : ((dedup (sortByName n.children)).map Node.aggregate).map Node.aggregate
        = (dedup (sortByName n.children)).map Node.aggregate := by
      rw [List.map_map]
      refine List.map_congr_left ?_
      intro c₀ hc₀
      exact aggregate_idem_aux c₀
    have hne : ((dedup (sortByName n.children)).map Node.aggregate).isEmpty = false := by
      have h1 : n.children ≠ [] := fun hnil => by
        rw [hnil] at h
        exact h rfl
      have h2 := dedup_ne_nil (sortByName_ne_nil h1)
      rcases hd : dedup (sortByName n.children) with _ | ⟨x, xs⟩
      · exact absurd hd h2
      · rfl
    rw [hm, Node.aggregate_mk, if_neg (by rw [hne]; exact Bool.false_ne_true)]
    rw [sortByName_of_sorted hsorted', dedup_of_chain_ne hchain, hmap]
termination_by n.size
decreasing_by
  have h1 : c₀.size ≤ sizeList (dedup (sortByName n.children)) := size_le_sizeList hc₀
  have h2 := sizeList_dedup (sortByName n.children)
  have h3 := sizeList_sortByName n.children
  have h4 := Node.size_eq n
  omega

theorem aggregate_sums_aux (n : Node) :
    countSum n.aggregate.children = countSum n.children ∧
      durationSum n.aggregate.children = durationSum n.children := by
  rw [Node.aggregate_children]
  by_cases h : n.children.isEmpty
  · rw [if_pos h]
    exact ⟨rfl, rfl⟩
  · rw [if_neg h]
    constructor
    · rw [countSum_map_aggregate, countSum_dedup, countSum_sortByName]
    · rw [durationSum_map_aggregate, durationSum_dedup, durationSum_sortByName]

/-- The kind of writer produced by the configured `MakeWriter` factory:
`io::Stderr` (the default, `io::stderr`), or one of the other
destinations the spec lists (files, in-memory buffers, pipes).  The
Rust code distinguishes them by the `TypeId` of `W::Writer`. -/
inductive WriterKind where
  | stderr
  | file
  | buffer
  | pipe
deriving DecidableEq

/-- Embedding of `fn should_style<W>() -> bool` from `src/lib.rs`: the writer type is
compared against `io::Stderr` twice (the second arm of the original
`if`/`else if` repeats the first); anything else is unstyled. -/
def should_style (w : WriterKind) : Bool :=
  if w = WriterKind.stderr then true
  else if w = WriterKind.stderr then true
  else false

/-- Modelled from the spec: the destination "recognized as an
interactive terminal-like stream" (§6).  The only such destination the
crate knows is the standard-error stream; files, buffers and pipes are
not terminal-like. -/
def isTerminalLike : WriterKind → Bool
  | .stderr => true
  | _ => false

/-- The constant `BOLD` from `src/lib.rs`. -/
def BOLD : String := "\x1b[1m"

/-- The constant `RESET` from `src/lib.rs`. -/
def RESET : String := "\x1b[0m"

/-- Left-align a string in a field of `w` columns, as `{:<w}` does. -/
def padRight (s : String) (w : Nat) : String :=
  s ++ String.mk (List.replicate (w - s.length) ' ')

/-- Indentation prefix of a line, `{s:width$}` with `s = ""`:
`width = 2 × level` spaces. -/
def indentStr (w : Nat) : String :=
  String.mk (List.replicate w ' ')

/-- The name column of a line: `style!(W, BOLD, name)` — the name
wrapped in `BOLD`/`RESET` when styling is on, the bare name otherwise. -/
def nameColumn (styled : Bool) (nm : String) : String :=
  if styled then BOLD ++ nm ++ RESET else nm

/-- The count column of a line:
`select!(*count > 1, format_args!(" {count:<6} "), format_args!(" "))` —
the count left-aligned in six columns when it exceeds one, a single
blank otherwise. -/
def countColumn (count : Nat) : String :=
  if 1 < count then " " ++ padRight (toString count) 6 ++ " " else " "

/-- The duration column: `{duration:<9}` applied to
`format_args!(" {duration:3.2?} ")`, with the textual rendering of the
duration itself (`std`'s `Duration` `Debug` impl) abstracted as
`fmtDuration`. -/
def durationColumn (fmtDuration : Nat → String) (d : Nat) : String :=
  padRight (" " ++ fmtDuration d ++ " ") 9

/-- One output line of `Node::go`:
`"{s:width$}{duration:<9}{count}{name}"` at the given indentation
level. -/
def lineFor (fmtDuration : Nat → String) (w : WriterKind) (level : Nat) (n : Node) : String :=
  indentStr (level * 2) ++ durationColumn fmtDuration n.duration ++ countColumn n.count ++
    nameColumn (should_style w) n.name

/-- Embedding of `Node::go` from `src/lib.rs`, returning the emitted lines: print
this node's line, recurse into the children at `level + 1`, and after
the whole subtree emit one empty line if this call is the root
(`level == 0`). -/
def Node.go (fmtDuration : Nat → String) (w : WriterKind) (level : Nat) (n : Node) :
    List String :=
  lineFor fmtDuration w level n ::
    ((n.children.attach.map (fun c => Node.go fmtDuration w (level + 1) c.1)).flatten ++
      (if level = 0 then [""] else []))
termination_by n.size
decreasing_by
  have h1 := size_le_sizeList c.2
  have h2 := Node.size_eq n
  omega

/-- Embedding of `Node::print` from `src/lib.rs`: optionally aggregate, then render
from level 0. -/
def Node.print (fmtDuration : Nat → String) (w : WriterKind) (n : Node) (agg : Bool) :
    List String :=
  Node.go fmtDuration w 0 (if agg then n.aggregate else n)

theorem Node.go_def (fmtDuration : Nat → String) (w : WriterKind) (level : Nat) (n : Node) :
    Node.go fmtDuration w level n =
      lineFor fmtDuration w level n ::
        ((n.children.map (Node.go fmtDuration w (level + 1))).flatten ++
          (if level = 0 then [""] else [])) := by
  rw [Node.go, List.attach_map_coe]

/-- The pre-order traversal of a tree, pairing every node with its
indentation level (the reference order of §4.4 of the spec). -/
def preorder (level : Nat) (n : Node) : List (Node × Nat) :=
  (n, level) :: (n.children.attach.map (fun c => preorder (level + 1) c.1)).flatten
termination_by n.size
decreasing_by
  have h1 := size_le_sizeList c.2
  have h2 := Node.size_eq n
  omega

theorem preorder_def (level : Nat) (n : Node) :
    preorder level n =
      (n, level) :: (n.children.map (preorder (level + 1))).flatten := by
  rw [preorder, List.attach_map_coe]

theorem go_eq_preorder_lines (fmtDuration : Nat → String) (w : WriterKind) (level : Nat)
    (n : Node) :
    Node.go fmtDuration w level n =
      (preorder level n).map (fun p => lineFor fmtDuration w p.2 p.1) ++
        (if level = 0 then [""] else []) := by
  rw [Node.go_def, preorder_def]
  rw [List.map_cons, List.cons_append]
  refine congrArg (lineFor fmtDuration w level n :: ·) ?_
  refine congrArg (· ++ (if level = 0 then [""] else [])) ?_
  rw [List.map_flatten, List.map_map]
  refine congrArg List.flatten ?_
  refine List.map_congr_left ?_
  intro c hc
  have hrec := go_eq_preorder_lines fmtDuration w (level + 1) c
  rw [Function.comp_apply, hrec]
  simp
termination_by n.size
decreasing_by
  have h1 := size_le_sizeList hc
  have h2 := Node.size_eq n
  omega

/-- The static metadata of a span exposed by the host (`tracing`): its
name (other descriptive fields are ignored by this crate). -/
structure Metadata where
  name : String

/-- Embedding of `struct Data` from `src/lib.rs`: the in-progress state attached to
a still-open span — the timestamp captured at creation and the finished
children accumulated so far. -/
structure Data where
  start : Nat
  children : List Node

/-- Embedding of `Data::into_node` from `src/lib.rs`:
`Node { name, count: 1, duration: self.start.elapsed(), children: self.children }`,
with `elapsed()` at instant `time` being `time - start`. -/
def Data.into_node (d : Data) (name : String) (time : Nat) : Node :=
  .mk name 1 (time - d.start) d.children

/-- One live span of the host registry: its id, static metadata, the
parent recorded at creation, and the attached `Data` extension. -/
structure OpenScope where
  id : Nat
  meta : Metadata
  parent : Option Nat
  data : Data

/-- A span lifecycle event delivered to the `Layer`: `on_new_span`
(with the parent resolved by the host at creation) or `on_close`. -/
inductive Event where
  | enter (id : Nat) (meta : Metadata) (parent : Option Nat) (time : Nat)
  | close (id : Nat) (time : Nat)

/-- The registry state seen by the `Layer`: the live spans with their
extensions, and the roots handed to `Node::print` so far. -/
structure St where
  scopes : List OpenScope
  roots : List Node

def findScope : List OpenScope → Nat → Option OpenScope
  | [], _ => none
  | sc :: rest, id => if sc.id = id then some sc else findScope rest id

def removeScope : List OpenScope → Nat → List OpenScope
  | [], _ => []
  | sc :: rest, id => if sc.id = id then rest else sc :: removeScope rest id

def updateScope : List OpenScope → Nat → (Data → Data) → List OpenScope
  | [], _, _ => []
  | sc :: rest, id, f =>
    if sc.id = id then ⟨sc.id, sc.meta, sc.parent, f sc.data⟩ :: rest
    else sc :: updateScope rest id f

/-- Embedding of `fn on_new_span` from `src/lib.rs`: create a `Data` with
`start = now()` and no children and insert it into the new span's
extensions.  The host guarantees that a live span id is never reused;
an id collision is a host-contract violation, answered with `none`. -/
def on_new_span (st : St) (id : Nat) (meta : Metadata) (parent : Option Nat) (time : Nat) :
    Option St :=
  match findScope st.scopes id with
  | some _ => none
  | none => some ⟨⟨id, meta, parent, ⟨time, []⟩⟩ :: st.scopes, st.roots⟩

/-- Embedding of `fn on_close` from `src/lib.rs`: take the span's `Data` out of its
extensions, finish it into a `Node` named after the span's metadata,
and either push it onto the parent's in-progress children or, for a
parentless root, hand it to `Node::print`.  The two `unwrap`s of the
source (span lookup, parent lookup) are the `none` outcomes. -/
def on_close (st : St) (id : Nat) (time : Nat) : Option St :=
  match findScope st.scopes id with
  | none => none
  | some sc =>
    match sc.parent with
    | none =>
      some ⟨removeScope st.scopes id, st.roots ++ [sc.data.into_node sc.meta.name time]⟩
    | some p =>
      match findScope (removeScope st.scopes id) p with
      | none => none
      | some _ =>
        some ⟨updateScope (removeScope st.scopes id) p
            (fun d => ⟨d.start, d.children ++ [sc.data.into_node sc.meta.name time]⟩),
          st.roots⟩

/-- Dispatch one event to the `Layer` callbacks. -/
def step (st : St) : Event → Option St
  | .enter id meta parent time => on_new_span st id meta parent time
  | .close id time => on_close st id time

/-- Process a sequence of events; `none` marks a host-contract
violation somewhere in the sequence (the sequence was not well-nested). -/
def run : List Event → St → Option St
  | [], st => some st
  | e :: es, st =>
    match step st e with
    | none => none
    | some st' => run es st'

/-- The children list currently accumulated in the open scope `p`
(`none` when `p` is not open). -/
def childrenOf (st : St) (p : Nat) : Option (List Node) :=
  (findScope st.scopes p).map (fun sc => sc.data.children)

/-- The id closed by an event, if any. -/
def closesId : Event → Option Nat
  | .close id _ => some id
  | .enter _ _ _ _ => none

/-- The node that one event appends to the children of the open scope
`p`: the finished node of a `close` event whose span has recorded
parent `p`, nothing otherwise. -/
def eventChild (p : Nat) (st : St) : Event → List Node
  | .enter _ _ _ _ => []
  | .close id time =>
    match findScope st.scopes id with
    | none => []
    | some sc =>
      if sc.parent = some p then [sc.data.into_node sc.meta.name time] else []

/-- The finished nodes of the scopes that close with recorded parent
`p` over an event sequence, in closing order. -/
def closedWithParent (p : Nat) : List Event → St → List Node
  | [], _ => []
  | e :: es, st =>
    match step st e with
    | none => []
    | some st' => eventChild p st e ++ closedWithParent p es st'

theorem findScope_removeScope_ne (l : List OpenScope) {p id : Nat} (h : p ≠ id) :
    findScope (removeScope l id) p = findScope l p := by
  induction l with
  | nil => rfl
  | cons sc rest ih =>
    by_cases hsc : sc.id = id
    · have hip : id ≠ p := fun hip => h hip.symm
      simp [removeScope, findScope, hsc, hip]
    · simp [removeScope, findScope, hsc, ih]

theorem findScope_updateScope_self (l : List OpenScope) (p : Nat) (f : Data → Data) :
    findScope (updateScope l p f) p =
      (findScope l p).map (fun sc => ⟨sc.id, sc.meta, sc.parent, f sc.data⟩) := by
  induction l with
  | nil => rfl
  | cons sc rest ih =>
    by_cases hsc : sc.id = p
    · simp [updateScope, findScope, hsc]
    · simp [updateScope, findScope, hsc, ih]

theorem findScope_updateScope_ne (l : List OpenScope) {q p : Nat} (h : q ≠ p)
    (f : Data → Data) :
    findScope (updateScope l p f) q = findScope l q := by
  induction l with
  | nil => rfl
  | cons sc rest ih =>
    by_cases hsc : sc.id = p
    · have hpq : p ≠ q := fun hpq => h hpq.symm
      simp [updateScope, findScope, hsc, hpq]
    · simp [updateScope, findScope, hsc, ih]

theorem run_children_append (es : List Event) (st' : St) (p : Nat) (st : St) (cs : List Node)
    (hrun : run es st = some st')
    (hnc : ∀ e ∈ es, closesId e ≠ some p)
    (hcs : childrenOf st p = some cs) :
    childrenOf st' p = some (cs ++ closedWithParent p es st) := by
  induction es generalizing st cs with
  | nil =>
    rw [run] at hrun
    cases hrun
    rw [closedWithParent, List.append_nil]
    exact hcs
  | cons e es ih =>
    rw [run] at hrun
    cases hstep : step st e with
    | none =>
      rw [hstep] at hrun
      exact absurd hrun (by simp)
    | some st₁ =>
      rw [hstep] at hrun
      have hnc' : ∀ e' ∈ es, closesId e' ≠ some p :=
        fun e' he' => hnc e' (List.mem_cons_of_mem e he')
      have hkey : childrenOf st₁ p = some (cs ++ eventChild p st e) := by
        cases e with
        | enter id meta parent t =>
          rw [step, on_new_span] at hstep
          cases hfind : findScope st.scopes id with
          | some sc =>
            simp [hfind] at hstep
          | none =>
            simp only [hfind] at hstep
            cases hstep
            have hip : id ≠ p := by
              intro hip
              rw [hip] at hfind
              rw [childrenOf, hfind] at hcs
              simp at hcs
            simpa [childrenOf, findScope, eventChild, hip] using hcs
        | close id t =>
          rw [step, on_close] at hstep
          have hip : id ≠ p := by
            have hne := hnc (Event.close id t) (List.mem_cons_self _ _)
            simp [closesId] at hne
            exact hne
          cases hfind : findScope st.scopes id with
          | none =>
            simp [hfind] at hstep
          | some sc =>
            simp only [hfind] at hstep
            cases hpar : sc.parent with
            | none =>
              simp only [hpar] at hstep
              cases hstep
              simpa [childrenOf, eventChild, hfind, hpar,
                findScope_removeScope_ne st.scopes (Ne.symm hip)] using hcs
            | some q =>
              simp only [hpar] at hstep
              cases hfindq : findScope (removeScope st.scopes id) q with
              | none =>
                simp [hfindq] at hstep
              | some psc =>
                simp only [hfindq] at hstep
                cases hstep
                by_cases hqp : q = p
                · subst hqp
                  rw [childrenOf, findScope_updateScope_self,
                    findScope_removeScope_ne st.scopes (Ne.symm hip)]
                  rw [childrenOf] at hcs
                  cases hfind0 : findScope st.scopes q with
                  | none =>
                    rw [hfind0] at hcs
                    simp at hcs
                  | some sc₀ =>
                    rw [hfind0] at hcs
                    simp only [Option.map_some'] at hcs ⊢
                    have hchildren : sc₀.data.children = cs := Option.some.inj hcs
                    simp [eventChild, hfind, hpar, hchildren]
                · have hpq : p ≠ q := fun hh => hqp hh.symm
                  simpa [childrenOf, eventChild, hfind, hpar, hqp,
                    findScope_updateScope_ne _ hpq,
                    findScope_removeScope_ne st.scopes (Ne.symm hip)] using hcs
      have hih := ih st₁ (cs ++ eventChild p st e) hrun hnc' hkey
      rw [closedWithParent, hstep, hih, List.append_assoc]

/-- Embedding of `struct SpanTree` from `src/lib.rs`: the builder configuration —
exactly an `aggregate` flag (default `false`) and the writer factory
(default: standard error).  The source exposes no name-formatting
option. -/
structure SpanTree where
  aggregate : Bool
  writer : WriterKind

/-- Embedding of `fn span_tree()` from `src/lib.rs`:
`SpanTree { aggregate: false, writer: io::stderr }`. -/
def span_tree : SpanTree :=
  ⟨false, .stderr⟩

/-- Embedding of `fn span_tree_with(writer)` from `src/lib.rs`. -/
def span_tree_with (w : WriterKind) : SpanTree :=
  ⟨false, w⟩

/-- Embedding of `SpanTree::aggregate` from `src/lib.rs`: set the aggregate flag. -/
def SpanTree.setAggregate (s : SpanTree) (yes : Bool) : SpanTree :=
  ⟨yes, s.writer⟩

/-- Modelled from the spec: the builder configuration §6 of the spec
describes, with its `name_formatter` option
(`optional function(metadata) -> text`). -/
structure SpanTreeSpec where
  aggregate : Bool
  name_formatter : Option (Metadata → String)

/-- Modelled from the spec: resolving a scope's display name at exit
under the spec's `name_formatter` option — the formatter applied to the
metadata when configured, the metadata's built-in name otherwise. -/
def resolve_name_spec (fmt : Option (Metadata → String)) (m : Metadata) : String :=
  match fmt with
  | some f => f m
  | none => m.name

/-- Modelled from the spec: the host's process-wide listener slot
(`tracing::subscriber::set_global_default`, a function of the `tracing`
crate, outside this repository): install the subscriber when the slot
is free, otherwise leave the slot unchanged and report failure. -/
def set_global_default (global : Option Nat) (sub : Nat) : Option Nat × Bool :=
  match global with
  | none => (some sub, true)
  | some s => (some s, false)

/-- Embedding of `SpanTree::enable` from `src/lib.rs`: install the subscriber as the
global default, and on failure emit the `debug!` diagnostic instead of
propagating the error (`unwrap_or_else(|_| debug!(..))`).  Returns the
new slot plus the list of emitted debug messages. -/
def enable (global : Option Nat) (sub : Nat) : Option Nat × List String :=
  match set_global_default global sub with
  | (g, true) => (g, [])
  | (g, false) => (g, ["Global subscriber is already set"])

/-- Initial registry of the C1 witness scenario: one open root scope
(id 1) entered at time 0. -/
def wSt0 : St :=
  ⟨[⟨1, ⟨"top_level"⟩, none, ⟨0, []⟩⟩], []⟩

/-- Events of the C1 witness scenario: two siblings under scope 1,
entered in the order `a` (id 2) then `b` (id 3), closed in the
opposite order `b` then `a`. -/
def wEvents : List Event :=
  [.enter 2 ⟨"a"⟩ (some 1) 1,
   .enter 3 ⟨"b"⟩ (some 1) 2,
   .close 3 4,
   .close 2 7]

/-- Final registry of the C1 witness scenario. -/
def wStF : St :=
  ⟨[⟨1, ⟨"top_level"⟩, none, ⟨0, [.mk "b" 1 2 [], .mk "a" 1 6 []]⟩⟩], []⟩

/-- Claim C1: for a well-nested event sequence (one `run` accepts), the
children accumulated in any scope `p` that stays open are exactly the
initial children followed by the finished nodes of the scopes that
closed with recorded parent `p`, in the order they closed
(`closedWithParent`): a node ends up under `p` iff its scope closed
while `p` was open (a close with an absent parent is rejected by
`on_close`), and sibling order is closing order, not entry order. -/
theorem builder_tree_mirrors_nesting (es : List Event) (st' : St) (p : Nat) (st : St)
    (cs : List Node) (hrun : run es st = some st')
    (hnc : ∀ e ∈ es, closesId e ≠ some p) (hcs : childrenOf st p = some cs) :
    childrenOf st' p = some (cs ++ closedWithParent p es st) :=
  run_children_append es st' p st cs hrun hnc hcs

/-- Witness for C1: in the concrete out-of-order scenario the two
siblings end up under the root in closing order (`b` before `a`),
not entry order. -/
theorem builder_tree_mirrors_nesting_witness :
    childrenOf wStF 1 = some ([] ++ closedWithParent 1 wEvents wSt0) ∧
      closedWithParent 1 wEvents wSt0 = [.mk "b" 1 2 [], .mk "a" 1 6 []] :=
  ⟨builder_tree_mirrors_nesting wEvents wStF 1 wSt0 [] (by rfl) (by decide) (by rfl), by rfl⟩

/-- Claim C2: after `Node::aggregate`, no node of the resulting tree — the
root or any descendant — has two direct children with equal names. -/
theorem aggregate_no_duplicate_child_names (n : Node) : NoDupNames n.aggregate :=
  noDupNames_aggregate_aux n

/-- Claim C3: `Node::aggregate` conserves, at every node, both the sum of
the direct children's counts and the sum of the direct children's
durations. -/
theorem aggregate_conserves_child_sums (n : Node) :
    countSum n.aggregate.children = countSum n.children ∧
      durationSum n.aggregate.children = durationSum n.children :=
  aggregate_sums_aux n

/-- Claim C4: `Node::aggregate` is idempotent: aggregating an already
aggregated tree gives the identical tree. -/
theorem aggregate_idempotent (n : Node) : n.aggregate.aggregate = n.aggregate :=
  aggregate_idem_aux n

/-- Claim C5: the count column of a rendered line is blank (a single
space) when the count equals one, and shows the numeric count
(left-aligned in six columns) when the count exceeds one. -/
theorem count_column_blank_iff_one (c : Nat) :
    (c = 1 → countColumn c = " ") ∧
      (1 < c → countColumn c = " " ++ padRight (toString c) 6 ++ " ") := by
  constructor
  · intro h
    subst h
    rfl
  · intro h
    rw [countColumn, if_pos h]

/-- Witness for C5 at counts 1 and 4. -/
theorem count_column_blank_iff_one_witness :
    countColumn 1 = " " ∧ countColumn 4 = " " ++ padRight (toString 4) 6 ++ " " :=
  ⟨(count_column_blank_iff_one 1).1 rfl, (count_column_blank_iff_one 4).2 (by decide)⟩

/-- Claim C6: `Node::go` renders the pre-order traversal of the tree, one
line per node whose indentation prefix is `2 × level` spaces, and emits
exactly one trailing blank line after the root's subtree (level 0) and
only there. -/
theorem go_renders_preorder_with_trailing_blank (fmt : Nat → String) (w : WriterKind)
    (level : Nat) (n : Node) :
    Node.go fmt w level n =
        (preorder level n).map (fun p => lineFor fmt w p.2 p.1) ++
          (if level = 0 then [""] else []) ∧
      lineFor fmt w level n =
        indentStr (level * 2) ++ durationColumn fmt n.duration ++ countColumn n.count ++
          nameColumn (should_style w) n.name :=
  ⟨go_eq_preorder_lines fmt w level n, rfl⟩

/-- Claim C7: a rendered line carries the bold emphasis around the name
exactly when the destination writer is the terminal-like stream
(standard error, the only destination `should_style` recognizes), and
the bare name for every other destination. -/
theorem styling_iff_terminal_like (fmt : Nat → String) (w : WriterKind) (level : Nat)
    (n : Node) :
    lineFor fmt w level n =
      indentStr (level * 2) ++ durationColumn fmt n.duration ++ countColumn n.count ++
        (if isTerminalLike w then BOLD ++ n.name ++ RESET else n.name) := by
  cases w <;> rfl

/-- Counterexample for C8: the source's `on_close` names the finished
node after the span's metadata unconditionally; no configuration
reproduces the behaviour the spec's `name_formatter` option describes
(here a formatter returning `"custom"` for a scope whose metadata name
is `"foo"`). -/
theorem name_formatter_absent_counterexample :
    on_close ⟨[⟨1, ⟨"foo"⟩, none, ⟨0, []⟩⟩], []⟩ 1 5 =
        some ⟨[], [Node.mk "foo" 1 5 []]⟩ ∧
      resolve_name_spec (some (fun _ => "custom")) ⟨"foo"⟩ = "custom" ∧
      (Node.mk "foo" 1 5 []).name ≠ resolve_name_spec (some (fun _ => "custom")) ⟨"foo"⟩ :=
  ⟨rfl, rfl, by decide⟩

/-- Claim C8, amended: the builder's configuration is exactly the
`aggregate` flag and the writer (`SpanTree`); there is no name
formatting option, and on every scope exit — a root close handing the
node to the renderer as much as a non-root close appending it to the
parent's in-progress children — the finished node's display name is
the host metadata's built-in name. -/
theorem on_close_names_node_from_metadata (st st' : St) (id t : Nat) (sc : OpenScope)
    (hfind : findScope st.scopes id = some sc)
    (hclose : on_close st id t = some st') :
    (sc.parent = none →
        st'.roots =
          st.roots ++ [Node.mk sc.meta.name 1 (t - sc.data.start) sc.data.children]) ∧
      (∀ p psc, sc.parent = some p →
        findScope (removeScope st.scopes id) p = some psc →
        childrenOf st' p =
          some (psc.data.children ++
            [Node.mk sc.meta.name 1 (t - sc.data.start) sc.data.children])) := by
  rw [on_close] at hclose
  simp only [hfind] at hclose
  constructor
  · intro hroot
    simp only [hroot] at hclose
    cases hclose
    rfl
  · intro p psc hpar hfp
    simp only [hpar, hfp] at hclose
    cases hclose
    rw [childrenOf, findScope_updateScope_self, hfp]
    rfl

/-- Witness for the amended C8 at a concrete non-root close: scope 2
(`"leaf"`, entered at 3, parent 1) closes at 7; the node appended to
scope 1's in-progress children is named by the metadata. -/
theorem on_close_names_node_from_metadata_witness :
    childrenOf ⟨[⟨1, ⟨"top"⟩, none, ⟨0, [Node.mk "leaf" 1 4 []]⟩⟩], []⟩ 1 =
      some (([] : List Node) ++ [Node.mk "leaf" 1 (7 - 3) []]) :=
  (on_close_names_node_from_metadata
      ⟨[⟨2, ⟨"leaf"⟩, some 1, ⟨3, []⟩⟩, ⟨1, ⟨"top"⟩, none, ⟨0, []⟩⟩], []⟩
      ⟨[⟨1, ⟨"top"⟩, none, ⟨0, [Node.mk "leaf" 1 4 []]⟩⟩], []⟩
      2 7 ⟨2, ⟨"leaf"⟩, some 1, ⟨3, []⟩⟩ rfl rfl).2
    1 ⟨1, ⟨"top"⟩, none, ⟨0, []⟩⟩ rfl rfl

/-- Claim C9: when a global subscriber is already installed, `enable`
leaves the slot unchanged and emits the low-severity
`"Global subscriber is already set"` diagnostic; it returns normally
(the error is swallowed by `unwrap_or_else`, never propagated). -/
theorem enable_skips_when_already_set (global : Option Nat) (sub s₀ : Nat)
    (h : global = some s₀) :
    enable global sub = (some s₀, ["Global subscriber is already set"]) := by
  subst h
  rfl

/-- Witness for C9: enabling over an existing subscriber `7`. -/
theorem enable_skips_when_already_set_witness :
    enable (some 7) 3 = (some 7, ["Global subscriber is already set"]) :=
  enable_skips_when_already_set (some 7) 3 7 rfl

/-- Claim C10: `Node::aggregate` leaves the fields of the node it is
invoked on — name, count, duration — unchanged; only the children
lists are rewritten. -/
theorem aggregate_preserves_own_fields (n : Node) :
    n.aggregate.name = n.name ∧ n.aggregate.count = n.count ∧
      n.aggregate.duration = n.duration :=
  ⟨Node.aggregate_name n, Node.aggregate_count n, Node.aggregate_duration n⟩
